import Mathlib

/-!
Verification development for the pusher-chat message delivery and
reconstruction pipeline.

The repository contains several evolving variants of the same chat client.
The definitions below are shallow embeddings of the relevant functions:

* the chunking variant of the message library (sendMessage, sendLargeMessage,
  getMessages, processChunkedMessages);
* the offline send queue hook (addToQueue, removeFromQueue, processQueue);
* the status/edit library (canEditMessage, batchMarkAsDelivered) and the
  chunking variant batch updater (batchUpdateMessageStatus);
* the two encrypted read paths (the encrypted middleware getMessages and the
  chat library getMessages) with their deduplication logic.

Strings of the source are modelled as Lean String, message content that is
sliced by the chunker as List Char (one cell per UTF-16 code unit of the
source), timestamps as Nat milliseconds, and the database as explicit lists
of rows.  Asynchronous store and crypto calls are modelled as explicit
parameters (the fetched row list, a decode oracle, the clock value).
-/

/-! ## Chunker / Reassembler (chunking variant of the message library) -/

/-- Chunk metadata stored on fragment rows, mirroring the chunk_info object
built by sendLargeMessage: message_id is the shared group id, chunk_index the
zero-based position, total_chunks the fragment count fixed at creation. -/
structure ChunkInfo where
  message_id : String
  chunk_index : Int
  total_chunks : Int
  is_chunked : Bool
deriving DecidableEq, Repr

/-- A stored message row of the chunking variant.  The id is assigned by the
store; rows built by the client carry the empty id.  The content is the list
of code units of the stored string. -/
structure Row where
  id : String
  sender_username : String
  receiver_username : String
  content : List Char
  content_type : String
  status : String
  message_timestamp : Nat
  is_edited : Bool
  chunk_info : Option ChunkInfo
deriving DecidableEq, Repr

/-- Truthiness of message.chunk_info?.is_chunked in the source: a row counts
as chunked when chunk_info is present and its is_chunked flag is set. -/
def isChunkedRow (r : Row) : Bool :=
  match r.chunk_info with
  | some ci => ci.is_chunked
  | none => false

/-- The group key message.chunk_info.message_id, read after the chunked
guard; the empty string stands for the absent field. -/
def chunkKey (r : Row) : String :=
  match r.chunk_info with
  | some ci => ci.message_id
  | none => ""

/-- The sort key a.chunk_info.chunk_index used by the fragment sort. -/
def chunkIndexOf (r : Row) : Int :=
  match r.chunk_info with
  | some ci => ci.chunk_index
  | none => 0

/-- The defaulted read chunks[0]?.chunk_info?.total_chunks || 0 applied to a
single row. -/
def groupTotalOf (r : Row) : Int :=
  match r.chunk_info with
  | some ci => ci.total_chunks
  | none => 0

/-- The stable ascending sort chunks.sort((a, b) => a.chunk_info.chunk_index
- b.chunk_info.chunk_index); insertion sort is stable, as required of
Array.prototype.sort. -/
def sortByIndex (l : List Row) : List Row :=
  List.insertionSort (fun a b => chunkIndexOf a ≤ chunkIndexOf b) l

/-- One step of first-occurrence accumulation: a Map gains a key only the
first time it is seen, and keys iterate in insertion order. -/
def insertNew (acc : List String) (g : String) : List String :=
  if g ∈ acc then acc else acc ++ [g]

/-- Keys of the chunkedGroups Map in iteration order: first occurrence
order of the group ids pushed while scanning the fetched rows. -/
def firstOccurrences (l : List String) : List String :=
  l.foldl insertNew []

/-- The regularMessages array of processChunkedMessages: fetched rows that
are not chunked, in fetch order. -/
def regularMessages (rows : List Row) : List Row :=
  rows.filter (fun r => !isChunkedRow r)

/-- Group ids of the chunkedGroups Map in iteration order. -/
def chunkGroupIds (rows : List Row) : List String :=
  firstOccurrences ((rows.filter (fun r => isChunkedRow r)).map chunkKey)

/-- The bucket of one group id: every chunked row with that key, in fetch
order, exactly as pushed into the Map by the forEach. -/
def groupRows (rows : List Row) (g : String) : List Row :=
  (rows.filter (fun r => isChunkedRow r)).filter (fun r => decide (chunkKey r = g))

/-- Reconstruction of one chunk group: sort by index; when the observed
count equals the defaulted total_chunks of the first sorted fragment, emit
one merged row (spread of the base fragment with joined content and cleared
chunk_info); otherwise emit the sorted fragments individually. -/
def reassembleGroup (chunks0 : List Row) : List Row :=
  let chunks := sortByIndex chunks0
  let expected : Int :=
    match chunks.head? with
    | some c => groupTotalOf c
    | none => 0
  if (chunks.length : Int) = expected then
    match chunks.head? with
    | some base =>
        [{ base with content := (chunks.map (fun c => c.content)).flatten,
                     chunk_info := none }]
    | none => []
  else chunks

/-- All reconstructed or surfaced fragments, one group after another in Map
iteration order. -/
def reconstructedMessages (rows : List Row) : List Row :=
  ((chunkGroupIds rows).map (fun g => reassembleGroup (groupRows rows g))).flatten

/-- processChunkedMessages: regular rows first, then the per-group results,
with no final re-sort. -/
def processChunkedMessages (rows : List Row) : List Row :=
  regularMessages rows ++ reconstructedMessages rows

/-- The view object built by the chunking variant getMessages from each
processed row, defaulting status to sent and is_edited to false. -/
structure MessageView where
  id : String
  sender_username : String
  receiver_username : String
  content : List Char
  content_type : String
  timestamp : Nat
  status : String
  is_edited : Bool
deriving DecidableEq, Repr

/-- Projection of one processed row to the returned message shape; the
falsy default message.status || sent is the empty-string check. -/
def toView (r : Row) : MessageView :=
  { id := r.id
    sender_username := r.sender_username
    receiver_username := r.receiver_username
    content := r.content
    content_type := r.content_type
    timestamp := r.message_timestamp
    status := if r.status = "" then "sent" else r.status
    is_edited := r.is_edited }

/-- The chunking variant getMessages after the fetch: process the fetched
rows (given here as the rows parameter, in ascending creation order as the
query returns them) and map each to its view. -/
def getMessagesView (rows : List Row) : List MessageView :=
  (processChunkedMessages rows).map toView

/-! ## Chunker (sendMessage / sendLargeMessage) -/

/-- The slicing loop of sendLargeMessage: for (let i = 0; i < len; i += n)
push(content.slice(i, i + n)).  Defined for every n; it agrees with the
source loop for n ≥ 1, the only sizes the source uses. -/
def chunksOf (n : Nat) : List Char → List (List Char)
  | [] => []
  | x :: xs => (x :: xs.take (n - 1)) :: chunksOf n (xs.drop (n - 1))
termination_by s => s.length
decreasing_by
  simp only [List.length_cons, List.length_drop]
  omega

/-- The chunks.map((chunk, index) => ...) builder: one fragment row per
chunk, stamped with the shared group id, its zero-based index and the fixed
total count. -/
def chunkRowsGo (sender receiver gid : String) (ts : Nat) (total : Int) :
    Nat → List (List Char) → List Row
  | _, [] => []
  | i, c :: cs =>
      { id := ""
        sender_username := sender
        receiver_username := receiver
        content := c
        content_type := "text"
        status := "sent"
        message_timestamp := ts
        is_edited := false
        chunk_info := some { message_id := gid
                             chunk_index := (i : Int)
                             total_chunks := total
                             is_chunked := true } }
        :: chunkRowsGo sender receiver gid ts total (i + 1) cs

/-- The rows inserted by sendLargeMessage: slices of 800 code units, each
stamped with the fresh group id, its index and total_chunks equal to the
number of slices. -/
def sendLargeMessageRows (sender receiver : String) (content : List Char)
    (gid : String) (ts : Nat) : List Row :=
  chunkRowsGo sender receiver gid ts ((chunksOf 800 content).length : Int) 0
    (chunksOf 800 content)

/-- The rows inserted by sendMessage: none on falsy parameters; the chunked
fragments for text longer than 1000; otherwise a single row without
chunk_info. -/
def sendMessageRows (sender receiver : String) (content : List Char)
    (contentType : String) (gid : String) (ts : Nat) : Option (List Row) :=
  if sender = "" ∨ receiver = "" ∨ content = [] then none
  else if contentType = "text" ∧ 1000 < content.length then
    some (sendLargeMessageRows sender receiver content gid ts)
  else
    some [{ id := ""
            sender_username := sender
            receiver_username := receiver
            content := content
            content_type := contentType
            status := "sent"
            message_timestamp := ts
            is_edited := false
            chunk_info := none }]

/-- Arithmetic shadow of chunksOf: the lengths of the produced slices as a
function of the input length alone. -/
def lengthsOf (n : Nat) : Nat → List Nat
  | 0 => []
  | m + 1 => (1 + min (n - 1) m) :: lengthsOf n (m - (n - 1))
termination_by m => m
decreasing_by omega

/-! ## Offline send queue (useMessageQueue hook) -/

/-- A queued outgoing message of the useMessageQueue hook.  The source id is
Date.now().toString(); the timestamp field is the same clock reading. -/
structure QueuedMessage where
  id : String
  content : String
  msgType : String
  receiverUsername : String
  timestamp : Nat
  retryCount : Nat
deriving DecidableEq, Repr

/-- Outcome of one onSendMessage invocation: resolved true, resolved false,
or rejected (the thrown path of the try/catch). -/
inductive SendResult where
  | success
  | failed
  | errored
deriving DecidableEq, Repr

/-- addToQueue: appends a fresh entry with retryCount 0 whose id is the
string form of the current millisecond clock, and returns that id together
with the new queue. -/
def addToQueue (now : Nat) (content msgType receiverUsername : String)
    (queue : List QueuedMessage) : List QueuedMessage × String :=
  let queuedMessage : QueuedMessage :=
    { id := toString now
      content := content
      msgType := msgType
      receiverUsername := receiverUsername
      timestamp := now
      retryCount := 0 }
  (queue ++ [queuedMessage], queuedMessage.id)

/-- removeFromQueue: drops every entry whose id matches. -/
def removeFromQueue (queue : List QueuedMessage) (messageId : String) :
    List QueuedMessage :=
  queue.filter (fun msg => decide (msg.id ≠ messageId))

/-- The functional update that increments the retry count of the entries
with the given id, as the setMessageQueue mapper does. -/
def incrementRetry (queue : List QueuedMessage) (messageId : String) :
    List QueuedMessage :=
  queue.map (fun msg =>
    if msg.id = messageId then { msg with retryCount := msg.retryCount + 1 }
    else msg)

/-- One loop body of processQueue acting on the current state: on success
remove the entry; on a false result increment its retry count and remove it
only when the snapshot value message.retryCount is already at least 3; on a
thrown error increment the retry count with no removal check. -/
def processEntry (st : List QueuedMessage) (message : QueuedMessage) :
    SendResult → List QueuedMessage
  | .success => removeFromQueue st message.id
  | .failed =>
      let st1 := incrementRetry st message.id
      if message.retryCount ≥ 3 then removeFromQueue st1 message.id else st1
  | .errored => incrementRetry st message.id

/-- processQueue: iterate the snapshot of the queue captured at entry (the
closure value, equal to the state when the drain starts) and thread the
evolving state through each send. -/
def processQueue (queue : List QueuedMessage)
    (send : QueuedMessage → SendResult) : List QueuedMessage :=
  queue.foldl (fun st message => processEntry st message (send message)) queue

/-- A sequence of drain passes; each pass snapshots the state left by the
previous one.  The send behaviour may differ between passes. -/
def drainAll (queue : List QueuedMessage)
    (sends : List (QueuedMessage → SendResult)) : List QueuedMessage :=
  sends.foldl (fun st send => processQueue st send) queue

/-! ## Status tracking and edits (messageStatus library and the chunking
variant batch updater) -/

/-- A message row as seen by the status updaters. -/
structure StatusRow where
  id : String
  status : String
  updated_at : Nat
deriving DecidableEq, Repr

/-- batchMarkAsDelivered of the messageStatus library: the update is
filtered by in(id, ids) and eq(status, sent), so exactly the listed rows
currently in status sent move to delivered. -/
def batchMarkAsDelivered (now : Nat) (messageIds : List String)
    (db : List StatusRow) : List StatusRow :=
  db.map (fun r =>
    if r.id ∈ messageIds ∧ r.status = "sent" then
      { r with status := "delivered", updated_at := now }
    else r)

/-- batchUpdateMessageStatus of the chunking variant: the update is filtered
only by in(id, ids); every listed row receives the given status whatever its
current status is. -/
def batchUpdateMessageStatus (now : Nat) (messageIds : List String)
    (status : String) (db : List StatusRow) : List StatusRow :=
  db.map (fun r =>
    if r.id ∈ messageIds then { r with status := status, updated_at := now }
    else r)

/-- canEditMessage: only the sender may edit, and only while now minus the
message timestamp is at most five minutes.  Timestamps are integer
milliseconds, as produced by Date.getTime. -/
def canEditMessage (messageTimestamp : Int) (senderUsername currentUsername : String)
    (now : Int) : Bool :=
  if senderUsername ≠ currentUsername then false
  else decide (now - messageTimestamp ≤ 5 * 60 * 1000)

/-! ## Encrypted read paths (dedup of dual-encrypted copies) -/

/-- A stored row of the encrypted variants: the content at rest is the
ciphertext; original_receiver is only present on self-addressed copies of
the later variant. -/
structure EncRow where
  id : String
  sender_username : String
  receiver_username : String
  encrypted_content : String
  content_type : String
  timestamp : Nat
  original_receiver : Option String
deriving DecidableEq, Repr

/-- A decrypted logical message as returned by the encrypted read paths. -/
structure DecMessage where
  id : String
  sender_username : String
  receiver_username : String
  content : String
  content_type : String
  timestamp : Nat
deriving DecidableEq, Repr

/-- The final sort by timestamp both encrypted read paths apply before
returning. -/
def sortByTimestamp (l : List DecMessage) : List DecMessage :=
  List.insertionSort (fun a b => a.timestamp ≤ b.timestamp) l

namespace EncMw

/-- The dedup key of the encrypted middleware read path is a single string:
the template joins the four parts with hyphens. -/
abbrev MsgKey := String

/-- The template string sender-decryptedContent-timestamp-contentType,
joined with hyphen separators exactly as the source builds it.  The join is
not injective: distinct part tuples can produce the same key when the parts
themselves contain hyphens. -/
def msgKey (sender content : String) (ts : Nat) (contentType : String) : MsgKey :=
  sender ++ "-" ++ content ++ "-" ++ toString ts ++ "-" ++ contentType

/-- Key of an emitted message, recomputed from the fields the loop copied
out of the row it was built from. -/
def keyOfMessage (m : DecMessage) : MsgKey :=
  msgKey m.sender_username m.content m.timestamp m.content_type

/-- The actualReceiver computation: original_receiver when truthy, else the
other user for a self copy, else the stored receiver. -/
def actualReceiver (cur other : String) (r : EncRow) : String :=
  let orig := r.original_receiver.getD ""
  if orig ≠ "" then orig
  else if r.sender_username = cur ∧ r.receiver_username = cur then other
  else r.receiver_username

/-- The message object pushed for one row that decrypted to content. -/
def mkMessage (cur other : String) (r : EncRow) (content : String) : DecMessage :=
  { id := r.id
    sender_username := r.sender_username
    receiver_username := actualReceiver cur other r
    content := content
    content_type := r.content_type
    timestamp := r.timestamp }

/-- The decrypt-and-dedup loop of the encrypted middleware getMessages:
rows not addressed to the current user are skipped; a row that fails to
decrypt is skipped by the catch; the key is computed from the decrypted
content and a row whose key was already seen is dropped, so the first
occurrence wins.  The dec oracle stands for decryptMessage with the session
private key, returning none where the source would throw. -/
def decryptLoop (dec : String → Option String) (cur other : String) :
    List EncRow → List MsgKey → List DecMessage
  | [], _ => []
  | r :: rs, seen =>
    if r.receiver_username = cur then
      match dec r.encrypted_content with
      | some content =>
          let k : MsgKey := msgKey r.sender_username content r.timestamp r.content_type
          if k ∈ seen then decryptLoop dec cur other rs seen
          else mkMessage cur other r content :: decryptLoop dec cur other rs (k :: seen)
      | none => decryptLoop dec cur other rs seen
    else decryptLoop dec cur other rs seen

/-- The encrypted middleware getMessages after the fetch: run the loop over
the fetched rows with an empty seen map, then sort by timestamp. -/
def getMessages (dec : String → Option String) (cur other : String)
    (rows : List EncRow) : List DecMessage :=
  sortByTimestamp (decryptLoop dec cur other rows [])

/-- The visibility-and-decryption outcome of one row: the key it would
dedup under, when the row is addressed to the current user and decrypts. -/
def decKey (dec : String → Option String) (cur : String) (r : EncRow) :
    Option MsgKey :=
  if r.receiver_username = cur then
    (dec r.encrypted_content).map
      (fun content => msgKey r.sender_username content r.timestamp r.content_type)
  else none

end EncMw

namespace ChatLib

/-- The dedup key of the chat library read path is a single string: the
template joins the three parts with hyphens. -/
abbrev ChatKey := String

/-- Key of a stored row: the template string sender-timestamp-contentType,
computed from the stored row before any decryption and before the receiver
check, with the same non-injective hyphen join as the source. -/
def chatKey (r : EncRow) : ChatKey :=
  r.sender_username ++ "-" ++ toString r.timestamp ++ "-" ++ r.content_type

/-- Key of an emitted message; the emitted fields copy the row fields the
key is built from. -/
def keyOfMessage (m : DecMessage) : ChatKey :=
  m.sender_username ++ "-" ++ toString m.timestamp ++ "-" ++ m.content_type

/-- The message object pushed for one row: the receiver is always shown as
the other user. -/
def mkMessage (other : String) (r : EncRow) (content : String) : DecMessage :=
  { id := r.id
    sender_username := r.sender_username
    receiver_username := other
    content := content
    content_type := r.content_type
    timestamp := r.timestamp }

/-- The decrypt loop of the chat library getMessages: the key of every
fetched row is recorded and checked first, before the receiver check and
before decryption; only rows addressed to the current user that decrypt are
emitted. -/
def decryptLoop (dec : String → Option String) (cur other : String) :
    List EncRow → List ChatKey → List DecMessage
  | [], _ => []
  | r :: rs, seen =>
    if chatKey r ∈ seen then decryptLoop dec cur other rs seen
    else
      if r.receiver_username = cur then
        match dec r.encrypted_content with
        | some content =>
            mkMessage other r content :: decryptLoop dec cur other rs (chatKey r :: seen)
        | none => decryptLoop dec cur other rs (chatKey r :: seen)
      else decryptLoop dec cur other rs (chatKey r :: seen)

/-- The chat library getMessages after the fetch: run the loop with an
empty seen set, then sort by timestamp. -/
def getMessages (dec : String → Option String) (cur other : String)
    (rows : List EncRow) : List DecMessage :=
  sortByTimestamp (decryptLoop dec cur other rows [])

end ChatLib

/-! ## Concrete example data used by the analysis -/

/-- A fresh queued message as addToQueue would create it at clock 0. -/
def queuedM0 : QueuedMessage :=
  { id := "0", content := "hi", msgType := "text", receiverUsername := "bob",
    timestamp := 0, retryCount := 0 }

/-- A send operation that always resolves false. -/
def alwaysFail : QueuedMessage → SendResult := fun _ => SendResult.failed

/-- A send operation that always resolves true. -/
def alwaysSucceed : QueuedMessage → SendResult := fun _ => SendResult.success

/-- A send operation that always rejects. -/
def alwaysError : QueuedMessage → SendResult := fun _ => SendResult.errored

/-- A decode oracle mapping two distinct ciphertexts to the same plaintext
and failing elsewhere, standing for decryptMessage with one private key. -/
def decOracle : String → Option String :=
  fun s => if s = "ct1" ∨ s = "ct2" then some "hi" else none

/-- Stored copy of a message addressed to the other user (receiver copy). -/
def encRowA : EncRow :=
  { id := "1", sender_username := "alice", receiver_username := "bob",
    encrypted_content := "ct1", content_type := "text", timestamp := 7,
    original_receiver := none }

/-- Self-addressed stored copy of the same logical message, re-encrypted,
hence ciphertext-distinct but identical once decoded. -/
def encRowB : EncRow :=
  { id := "2", sender_username := "alice", receiver_username := "alice",
    encrypted_content := "ct2", content_type := "text", timestamp := 7,
    original_receiver := none }

/-- First of two rows addressed to the current user that decode to the same
tuple. -/
def encRowC : EncRow :=
  { id := "3", sender_username := "alice", receiver_username := "alice",
    encrypted_content := "ct1", content_type := "text", timestamp := 7,
    original_receiver := none }

/-- Second of two rows addressed to the current user that decode to the same
tuple, with a different ciphertext. -/
def encRowD : EncRow :=
  { id := "4", sender_username := "alice", receiver_username := "alice",
    encrypted_content := "ct2", content_type := "text", timestamp := 7,
    original_receiver := none }

/-- A decode oracle for the key-collision example: two ciphertexts decode
to contents whose hyphen-joined keys coincide across different senders. -/
def collideOracle : String → Option String :=
  fun s => if s = "c1" then some "x-foo" else if s = "c2" then some "foo" else none

/-- A row from sender al whose decoded content x-foo contains a hyphen. -/
def collideRowP : EncRow :=
  { id := "p", sender_username := "al", receiver_username := "al",
    encrypted_content := "c1", content_type := "text", timestamp := 7,
    original_receiver := none }

/-- A later row from the hyphenated sender al-x with decoded content foo:
a distinct decoded tuple whose joined key equals the previous row key. -/
def collideRowQ : EncRow :=
  { id := "q", sender_username := "al-x", receiver_username := "al",
    encrypted_content := "c2", content_type := "text", timestamp := 7,
    original_receiver := none }

/-- A fragment row of group g5 at index 0 with total_chunks 3. -/
def partialFrag0 : Row :=
  { id := "p0", sender_username := "alice", receiver_username := "bob",
    content := ['A'], content_type := "text", status := "sent",
    message_timestamp := 1, is_edited := false,
    chunk_info := some { message_id := "g5", chunk_index := 0,
                         total_chunks := 3, is_chunked := true } }

/-- A fragment row of group g5 at index 1 with total_chunks 3; index 2 is
missing, so the group is partial. -/
def partialFrag1 : Row :=
  { id := "p1", sender_username := "alice", receiver_username := "bob",
    content := ['B'], content_type := "text", status := "sent",
    message_timestamp := 1, is_edited := false,
    chunk_info := some { message_id := "g5", chunk_index := 1,
                         total_chunks := 3, is_chunked := true } }

/-- Fetched rows holding 2 of the 3 fragments of group g5. -/
def partialRows : List Row := [partialFrag0, partialFrag1]

/-- Fragment of group g6 at index 0, total 2. -/
def dupFrag0 : Row :=
  { id := "d0", sender_username := "alice", receiver_username := "bob",
    content := ['A'], content_type := "text", status := "sent",
    message_timestamp := 1, is_edited := false,
    chunk_info := some { message_id := "g6", chunk_index := 0,
                         total_chunks := 2, is_chunked := true } }

/-- Duplicate insert of the index 0 fragment of group g6 with different
content. -/
def dupFrag0b : Row :=
  { id := "d0b", sender_username := "alice", receiver_username := "bob",
    content := ['B'], content_type := "text", status := "sent",
    message_timestamp := 1, is_edited := false,
    chunk_info := some { message_id := "g6", chunk_index := 0,
                         total_chunks := 2, is_chunked := true } }

/-- Fragment of group g6 at index 1, total 2. -/
def dupFrag1 : Row :=
  { id := "d1", sender_username := "alice", receiver_username := "bob",
    content := ['C'], content_type := "text", status := "sent",
    message_timestamp := 1, is_edited := false,
    chunk_info := some { message_id := "g6", chunk_index := 1,
                         total_chunks := 2, is_chunked := true } }

/-- Group g6 with a duplicated index 0: observed count 3 against total 2. -/
def dupChunkRows : List Row := [dupFrag0, dupFrag0b, dupFrag1]

/-- Group g6 as it would look with one fragment per index. -/
def dedupChunkRows : List Row := [dupFrag0, dupFrag1]

/-- A complete one-fragment chunk group created at time 5. -/
def chRow10 : Row :=
  { id := "c", sender_username := "alice", receiver_username := "bob",
    content := ['X'], content_type := "text", status := "sent",
    message_timestamp := 5, is_edited := false,
    chunk_info := some { message_id := "g10", chunk_index := 0,
                         total_chunks := 1, is_chunked := true } }

/-- A regular row created later, at time 10. -/
def regRow10 : Row :=
  { id := "r", sender_username := "bob", receiver_username := "alice",
    content := ['Y'], content_type := "text", status := "sent",
    message_timestamp := 10, is_edited := false, chunk_info := none }

/-- Fetched rows in ascending creation order: the chunk group first, the
newer regular row second. -/
def readRows10 : List Row := [chRow10, regRow10]

/-! ## Lemmas about the chunk slicer -/

theorem chunksOf_flatten (n : Nat) (s : List Char) :
    (chunksOf n s).flatten = s := by
  have key : ∀ (m : Nat) (t : List Char), t.length ≤ m →
      (chunksOf n t).flatten = t := by
    intro m
    induction m with
    | zero =>
      intro t ht
      have : t = [] := List.eq_nil_of_length_eq_zero (Nat.le_zero.mp ht)
      subst this
      simp [chunksOf]
    | succ m ih =>
      intro t ht
      match t with
      | [] => simp [chunksOf]
      | x :: xs =>
        have hd : (xs.drop (n - 1)).length ≤ m := by
          simp only [List.length_drop]
          simp only [List.length_cons] at ht
          omega
        rw [chunksOf]
        simp only [List.flatten_cons]
        rw [ih (xs.drop (n - 1)) hd]
        rw [List.cons_append, List.take_append_drop]
  exact key s.length s le_rfl

theorem chunksOf_ne_nil (n : Nat) (x : Char) (xs : List Char) :
    chunksOf n (x :: xs) ≠ [] := by
  rw [chunksOf]
  simp

theorem chunksOf_chunk_length_le (n : Nat) (hn : 1 ≤ n) (s : List Char) :
    ∀ c ∈ chunksOf n s, c.length ≤ n := by
  have key : ∀ (m : Nat) (t : List Char), t.length ≤ m →
      ∀ c ∈ chunksOf n t, c.length ≤ n := by
    intro m
    induction m with
    | zero =>
      intro t ht
      have : t = [] := List.eq_nil_of_length_eq_zero (Nat.le_zero.mp ht)
      subst this
      simp [chunksOf]
    | succ m ih =>
      intro t ht c hc
      match t with
      | [] => simp [chunksOf] at hc
      | x :: xs =>
        have hd : (xs.drop (n - 1)).length ≤ m := by
          simp only [List.length_drop]
          simp only [List.length_cons] at ht
          omega
        rw [chunksOf] at hc
        rcases List.mem_cons.mp hc with h | h
        · subst h
          simp only [List.length_cons, List.length_take]
          omega
        · exact ih (xs.drop (n - 1)) hd c h
  exact key s.length s le_rfl

theorem chunksOf_map_length (n : Nat) (s : List Char) :
    (chunksOf n s).map List.length = lengthsOf n s.length := by
  have key : ∀ (m : Nat) (t : List Char), t.length ≤ m →
      (chunksOf n t).map List.length = lengthsOf n t.length := by
    intro m
    induction m with
    | zero =>
      intro t ht
      have : t = [] := List.eq_nil_of_length_eq_zero (Nat.le_zero.mp ht)
      subst this
      simp [chunksOf, lengthsOf]
    | succ m ih =>
      intro t ht
      match t with
      | [] => simp [chunksOf, lengthsOf]
      | x :: xs =>
        have hd : (xs.drop (n - 1)).length ≤ m := by
          simp only [List.length_drop]
          simp only [List.length_cons] at ht
          omega
        rw [chunksOf]
        simp only [List.map_cons, List.length_cons, List.length_take]
        rw [ih (xs.drop (n - 1)) hd]
        rw [List.length_drop]
        conv_rhs => rw [lengthsOf]
        congr 1
        omega
  exact key s.length s le_rfl

/-! ## Lemmas about the fragment row builder -/

theorem chunkRowsGo_map_content (sender receiver gid : String) (ts : Nat)
    (total : Int) : ∀ (i : Nat) (cs : List (List Char)),
    (chunkRowsGo sender receiver gid ts total i cs).map (fun r => r.content) = cs := by
  intro i cs
  induction cs generalizing i with
  | nil => simp [chunkRowsGo]
  | cons c cs ih => simp [chunkRowsGo, ih]

theorem chunkRowsGo_length (sender receiver gid : String) (ts : Nat)
    (total : Int) : ∀ (i : Nat) (cs : List (List Char)),
    (chunkRowsGo sender receiver gid ts total i cs).length = cs.length := by
  intro i cs
  induction cs generalizing i with
  | nil => simp [chunkRowsGo]
  | cons c cs ih => simp [chunkRowsGo, ih]

theorem chunkRowsGo_mem (sender receiver gid : String) (ts : Nat)
    (total : Int) : ∀ (i : Nat) (cs : List (List Char)) (r : Row),
    r ∈ chunkRowsGo sender receiver gid ts total i cs →
    isChunkedRow r = true ∧ chunkKey r = gid ∧ groupTotalOf r = total ∧
      r.message_timestamp = ts := by
  intro i cs
  induction cs generalizing i with
  | nil => intro r hr; simp [chunkRowsGo] at hr
  | cons c cs ih =>
    intro r hr
    rw [chunkRowsGo] at hr
    rcases List.mem_cons.mp hr with h | h
    · subst h
      exact ⟨rfl, rfl, rfl, rfl⟩
    · exact ih (i + 1) r h

theorem chunkRowsGo_index_ge (sender receiver gid : String) (ts : Nat)
    (total : Int) : ∀ (i : Nat) (cs : List (List Char)) (r : Row),
    r ∈ chunkRowsGo sender receiver gid ts total i cs →
    (i : Int) ≤ chunkIndexOf r := by
  intro i cs
  induction cs generalizing i with
  | nil => intro r hr; simp [chunkRowsGo] at hr
  | cons c cs ih =>
    intro r hr
    rw [chunkRowsGo] at hr
    rcases List.mem_cons.mp hr with h | h
    · subst h
      simp [chunkIndexOf]
    · have h1 := ih (i + 1) r h
      have h2 : ((i : Int) + 1) ≤ chunkIndexOf r := by exact_mod_cast h1
      omega

theorem chunkRowsGo_sorted (sender receiver gid : String) (ts : Nat)
    (total : Int) : ∀ (i : Nat) (cs : List (List Char)),
    List.Sorted (fun a b => chunkIndexOf a ≤ chunkIndexOf b)
      (chunkRowsGo sender receiver gid ts total i cs) := by
  intro i cs
  induction cs generalizing i with
  | nil => simp [chunkRowsGo, List.Sorted]
  | cons c cs ih =>
    rw [chunkRowsGo, List.sorted_cons]
    refine ⟨?_, ih (i + 1)⟩
    intro r hr
    have h1 := chunkRowsGo_index_ge sender receiver gid ts total (i + 1) cs r hr
    have h2 : ((i : Int) + 1) ≤ chunkIndexOf r := by exact_mod_cast h1
    simp only [chunkIndexOf] at h2 ⊢
    omega

/-! ## Lemmas about first-occurrence grouping -/

theorem mem_foldl_insertNew (x : String) :
    ∀ (l acc : List String), x ∈ l.foldl insertNew acc ↔ x ∈ acc ∨ x ∈ l := by
  intro l
  induction l with
  | nil => intro acc; simp
  | cons a l ih =>
    intro acc
    rw [List.foldl_cons, ih]
    unfold insertNew
    by_cases ha : a ∈ acc
    · simp only [if_pos ha, List.mem_cons]
      constructor
      · rintro (h | h)
        · exact Or.inl h
        · exact Or.inr (Or.inr h)
      · rintro (h | h | h)
        · exact Or.inl h
        · subst h; exact Or.inl ha
        · exact Or.inr h
    · simp only [if_neg ha, List.mem_append, List.mem_singleton, List.mem_cons]
      tauto

theorem mem_firstOccurrences (x : String) (l : List String) :
    x ∈ firstOccurrences l ↔ x ∈ l := by
  rw [firstOccurrences, mem_foldl_insertNew]
  simp

theorem foldl_insertNew_of_subset :
    ∀ (l acc : List String), (∀ g ∈ l, g ∈ acc) → l.foldl insertNew acc = acc := by
  intro l
  induction l with
  | nil => intro acc _; rfl
  | cons a l ih =>
    intro acc hsub
    rw [List.foldl_cons]
    have ha : a ∈ acc := hsub a (List.mem_cons_self a l)
    rw [insertNew, if_pos ha]
    exact ih acc (fun g hg => hsub g (List.mem_cons_of_mem a hg))

theorem firstOccurrences_of_constant (l : List String) (a : String)
    (hne : l ≠ []) (hall : ∀ g ∈ l, g = a) : firstOccurrences l = [a] := by
  match l with
  | [] => exact absurd rfl hne
  | g :: l =>
    have hg : g = a := hall g (List.mem_cons_self g l)
    subst hg
    rw [firstOccurrences, List.foldl_cons]
    rw [insertNew, if_neg (by simp)]
    simp only [List.nil_append]
    exact foldl_insertNew_of_subset l [g]
      (fun x hx => by rw [hall x (List.mem_cons_of_mem g hx)]; simp)

/-! ## Lemmas about reassembly -/

theorem sortByIndex_perm (l : List Row) : (sortByIndex l).Perm l :=
  List.perm_insertionSort _ l

theorem mem_sortByIndex (r : Row) (l : List Row) :
    r ∈ sortByIndex l ↔ r ∈ l :=
  (sortByIndex_perm l).mem_iff

theorem sortByIndex_of_sorted (l : List Row)
    (h : List.Sorted (fun a b => chunkIndexOf a ≤ chunkIndexOf b) l) :
    sortByIndex l = l :=
  List.Sorted.insertionSort_eq h

theorem sortByIndex_length (l : List Row) :
    (sortByIndex l).length = l.length :=
  (sortByIndex_perm l).length_eq

theorem reassembleGroup_of_incomplete (frags : List Row) (t : Int)
    (htot : ∀ f ∈ frags, groupTotalOf f = t)
    (hne : frags ≠ [])
    (hlen : (frags.length : Int) ≠ t) :
    reassembleGroup frags = sortByIndex frags := by
  rw [reassembleGroup]
  have hlen2 : (sortByIndex frags).length = frags.length := sortByIndex_length frags
  match hh : (sortByIndex frags).head? with
  | none =>
    have : sortByIndex frags = [] := List.head?_eq_none_iff.mp hh
    have : frags = [] := List.eq_nil_of_length_eq_zero
      (by rw [← hlen2, this]; rfl)
    exact absurd this hne
  | some h =>
    have hmem : h ∈ sortByIndex frags := List.mem_of_mem_head? (by rw [hh]; rfl)
    have ht : groupTotalOf h = t := htot h ((mem_sortByIndex h frags).mp hmem)
    simp only [hh, ht, hlen2]
    rw [if_neg hlen]

theorem reassembleGroup_mem_of_incomplete (frags : List Row) (t : Int)
    (htot : ∀ f ∈ frags, groupTotalOf f = t)
    (hne : frags ≠ [])
    (hlen : (frags.length : Int) ≠ t)
    (f : Row) (hf : f ∈ frags) : f ∈ reassembleGroup frags := by
  rw [reassembleGroup_of_incomplete frags t htot hne hlen]
  exact (mem_sortByIndex f frags).mpr hf

theorem reassembleGroup_timestamp_witness (frags : List Row) (hne : frags ≠ []) :
    ∃ e ∈ reassembleGroup frags, ∃ f ∈ frags,
      e.message_timestamp = f.message_timestamp := by
  rw [reassembleGroup]
  have hlen2 : (sortByIndex frags).length = frags.length := sortByIndex_length frags
  match hh : (sortByIndex frags).head? with
  | none =>
    have h0 : sortByIndex frags = [] := List.head?_eq_none_iff.mp hh
    have : frags = [] := List.eq_nil_of_length_eq_zero
      (by rw [← hlen2, h0]; rfl)
    exact absurd this hne
  | some h =>
    have hmem : h ∈ sortByIndex frags := List.mem_of_mem_head? (by rw [hh]; rfl)
    have hmemf : h ∈ frags := (mem_sortByIndex h frags).mp hmem
    simp only [hh]
    by_cases hc : ((sortByIndex frags).length : Int) =
        (match some h with | some c => groupTotalOf c | none => 0)
    · rw [if_pos hc]
      exact ⟨_, List.mem_singleton_self _, h, hmemf, rfl⟩
    · rw [if_neg hc]
      exact ⟨h, hmem, h, hmemf, rfl⟩

theorem mem_groupRows (rows : List Row) (g : String) (r : Row) :
    r ∈ groupRows rows g ↔ r ∈ rows ∧ isChunkedRow r = true ∧ chunkKey r = g := by
  rw [groupRows]
  simp only [List.mem_filter, decide_eq_true_eq]
  tauto

theorem chunkKey_mem_chunkGroupIds (rows : List Row) (c : Row)
    (hc : c ∈ rows) (hch : isChunkedRow c = true) :
    chunkKey c ∈ chunkGroupIds rows := by
  rw [chunkGroupIds, mem_firstOccurrences]
  exact List.mem_map_of_mem chunkKey (List.mem_filter.mpr ⟨hc, hch⟩)

theorem mem_processChunkedMessages_of_group (rows : List Row) (g : String)
    (hg : g ∈ chunkGroupIds rows) (e : Row)
    (he : e ∈ reassembleGroup (groupRows rows g)) :
    e ∈ processChunkedMessages rows := by
  rw [processChunkedMessages]
  refine List.mem_append_right _ ?_
  rw [reconstructedMessages, List.mem_flatten]
  exact ⟨reassembleGroup (groupRows rows g),
    List.mem_map_of_mem _ hg, he⟩

theorem mem_processChunkedMessages_of_regular (rows : List Row) (r : Row)
    (hr : r ∈ rows) (hreg : isChunkedRow r = false) :
    r ∈ processChunkedMessages rows := by
  rw [processChunkedMessages]
  refine List.mem_append_left _ ?_
  rw [regularMessages]
  exact List.mem_filter.mpr ⟨hr, by rw [hreg]; rfl⟩

theorem reassembleGroup_complete (frags r0rest : List Row) (r0 : Row) (rest : List Row)
    (hsort : sortByIndex frags = r0 :: rest)
    (hr0rest : r0rest = r0 :: rest)
    (htot : groupTotalOf r0 = (frags.length : Int)) :
    reassembleGroup frags =
      [{ r0 with content := (r0rest.map (fun c => c.content)).flatten,
                 chunk_info := none }] := by
  rw [reassembleGroup]
  simp only [hsort, hr0rest, List.head?_cons]
  have hl : ((r0 :: rest).length : Int) = (frags.length : Int) := by
    have := sortByIndex_length frags
    rw [hsort] at this
    exact_mod_cast congrArg Nat.cast this
  rw [if_pos (by rw [hl, htot])]

theorem processChunked_single_group (rows : List Row) (g : String)
    (hall : ∀ r ∈ rows, isChunkedRow r = true ∧ chunkKey r = g)
    (hne : rows ≠ []) :
    processChunkedMessages rows = reassembleGroup rows := by
  have hfilter : rows.filter (fun r => isChunkedRow r) = rows := by
    rw [List.filter_eq_self]
    intro r hr
    exact (hall r hr).1
  have hreg : regularMessages rows = [] := by
    rw [regularMessages, List.filter_eq_nil_iff]
    intro r hr
    simp [(hall r hr).1]
  have hgids : chunkGroupIds rows = [g] := by
    rw [chunkGroupIds, hfilter]
    apply firstOccurrences_of_constant
    · simp only [ne_eq, List.map_eq_nil_iff]
      exact hne
    · intro x hx
      obtain ⟨r, hr, hgr⟩ := List.mem_map.mp hx
      rw [← hgr]
      exact (hall r hr).2
  have hgroup : groupRows rows g = rows := by
    rw [groupRows, hfilter, List.filter_eq_self]
    intro r hr
    simp [(hall r hr).2]
  rw [processChunkedMessages, reconstructedMessages, hreg, hgids]
  simp only [List.map_cons, List.map_nil, List.flatten_cons, List.flatten_nil,
    List.nil_append, List.append_nil]
  rw [hgroup]

theorem processChunked_sendLarge (sender receiver gid : String)
    (content : List Char) (ts : Nat) (hc : content ≠ []) :
    (processChunkedMessages
        (sendLargeMessageRows sender receiver content gid ts)).map
      (fun r => r.content) = [content] := by
  have hmem : ∀ r ∈ sendLargeMessageRows sender receiver content gid ts,
      isChunkedRow r = true ∧ chunkKey r = gid ∧
      groupTotalOf r = ((chunksOf 800 content).length : Int) ∧
      r.message_timestamp = ts := by
    intro r hr
    exact chunkRowsGo_mem sender receiver gid ts _ 0 _ r hr
  have hlen : (sendLargeMessageRows sender receiver content gid ts).length =
      (chunksOf 800 content).length :=
    chunkRowsGo_length sender receiver gid ts _ 0 _
  have hcont : (sendLargeMessageRows sender receiver content gid ts).map
      (fun r => r.content) = chunksOf 800 content :=
    chunkRowsGo_map_content sender receiver gid ts _ 0 _
  have hcsne : chunksOf 800 content ≠ [] := by
    match content, hc with
    | x :: xs, _ => exact chunksOf_ne_nil 800 x xs
  have hne : sendLargeMessageRows sender receiver content gid ts ≠ [] := by
    intro h0
    apply hcsne
    have h1 := hlen
    rw [h0] at h1
    exact List.eq_nil_of_length_eq_zero h1.symm
  have hsorted : sortByIndex (sendLargeMessageRows sender receiver content gid ts) =
      sendLargeMessageRows sender receiver content gid ts :=
    sortByIndex_of_sorted _ (chunkRowsGo_sorted sender receiver gid ts _ 0 _)
  rw [processChunked_single_group _ gid (fun r hr => ⟨(hmem r hr).1, (hmem r hr).2.1⟩) hne]
  obtain ⟨r0, rest, hrw⟩ := List.exists_cons_of_ne_nil hne
  have htot : groupTotalOf r0 =
      ((sendLargeMessageRows sender receiver content gid ts).length : Int) := by
    have h1 := (hmem r0 (by rw [hrw]; exact List.mem_cons_self r0 rest)).2.2.1
    rw [h1, hlen]
  have hre := reassembleGroup_complete
    (sendLargeMessageRows sender receiver content gid ts)
    (sendLargeMessageRows sender receiver content gid ts) r0 rest
    (by rw [hsorted, hrw]) hrw htot
  rw [hre, List.map_cons, List.map_nil]
  have hval : ({ r0 with
      content := ((sendLargeMessageRows sender receiver content gid ts).map
        (fun c => c.content)).flatten,
      chunk_info := none } : Row).content = content := by
    simp only [hcont]
    exact chunksOf_flatten 800 content
  rw [hval]

/-! ## Lemmas about the offline queue -/

theorem filter_removeFromQueue (mid k : String) (h : mid ≠ k)
    (st : List QueuedMessage) :
    (removeFromQueue st mid).filter (fun m => decide (m.id = k)) =
      st.filter (fun m => decide (m.id = k)) := by
  rw [removeFromQueue, List.filter_filter]
  apply List.filter_congr
  intro a _
  by_cases hk : a.id = k
  · have hne : a.id ≠ mid := by rw [hk]; exact fun he => h he.symm
    simp [hk, hne]
    exact fun he => h he.symm
  · simp [hk]

theorem filter_removeFromQueue_self (mid : String) (st : List QueuedMessage) :
    (removeFromQueue st mid).filter (fun m => decide (m.id = mid)) = [] := by
  rw [removeFromQueue, List.filter_filter, List.filter_eq_nil_iff]
  intro a _
  by_cases hk : a.id = mid
  · simp [hk]
  · simp [hk]

theorem filter_incrementRetry_ne (mid k : String) (h : mid ≠ k) :
    ∀ st : List QueuedMessage,
    (incrementRetry st mid).filter (fun m => decide (m.id = k)) =
      st.filter (fun m => decide (m.id = k)) := by
  intro st
  induction st with
  | nil => rfl
  | cons a st ih =>
    rw [incrementRetry, List.map_cons, ← incrementRetry]
    by_cases ha : a.id = mid
    · rw [if_pos ha]
      have hk : a.id ≠ k := by rw [ha]; exact h
      rw [List.filter_cons, List.filter_cons]
      simp only [show (({ a with retryCount := a.retryCount + 1 } : QueuedMessage)).id = a.id from rfl]
      simp only [hk, decide_eq_true_eq, if_neg, ih]
      simp [hk]
    · rw [if_neg ha, List.filter_cons, List.filter_cons, ih]

theorem filter_incrementRetry_self (mid : String) :
    ∀ st : List QueuedMessage,
    (incrementRetry st mid).filter (fun m => decide (m.id = mid)) =
      (st.filter (fun m => decide (m.id = mid))).map
        (fun m => { m with retryCount := m.retryCount + 1 }) := by
  intro st
  induction st with
  | nil => rfl
  | cons a st ih =>
    rw [incrementRetry, List.map_cons, ← incrementRetry]
    by_cases ha : a.id = mid
    · rw [if_pos ha]
      rw [List.filter_cons, List.filter_cons]
      simp only [show (({ a with retryCount := a.retryCount + 1 } : QueuedMessage)).id = a.id from rfl]
      simp only [ha, decide_True, if_pos, List.map_cons, ih]
    · rw [if_neg ha, List.filter_cons, List.filter_cons]
      simp only [ha, decide_False]
      simp only [if_neg, Bool.false_eq_true, not_false_eq_true]
      exact ih

theorem filter_processEntry_ne (k : String) (msg : QueuedMessage)
    (h : msg.id ≠ k) (st : List QueuedMessage) (res : SendResult) :
    (processEntry st msg res).filter (fun m => decide (m.id = k)) =
      st.filter (fun m => decide (m.id = k)) := by
  cases res with
  | success => exact filter_removeFromQueue msg.id k h st
  | failed =>
    show ((if msg.retryCount ≥ 3 then removeFromQueue (incrementRetry st msg.id) msg.id
        else incrementRetry st msg.id)).filter (fun m => decide (m.id = k)) = _
    by_cases h3 : msg.retryCount ≥ 3
    · rw [if_pos h3, filter_removeFromQueue msg.id k h,
        filter_incrementRetry_ne msg.id k h]
    · rw [if_neg h3, filter_incrementRetry_ne msg.id k h]
  | errored => exact filter_incrementRetry_ne msg.id k h st

theorem filter_foldl_processEntry_ne (send : QueuedMessage → SendResult)
    (k : String) :
    ∀ (ms : List QueuedMessage) (st : List QueuedMessage),
    (∀ m ∈ ms, m.id ≠ k) →
    ((ms.foldl (fun st m => processEntry st m (send m)) st).filter
        (fun m => decide (m.id = k))) =
      st.filter (fun m => decide (m.id = k)) := by
  intro ms
  induction ms with
  | nil => intro st _; rfl
  | cons a ms ih =>
    intro st hne
    rw [List.foldl_cons]
    rw [ih _ (fun m hm => hne m (List.mem_cons_of_mem a hm))]
    exact filter_processEntry_ne k a (hne a (List.mem_cons_self a ms)) st (send a)

theorem processQueue_filter_characterization (q : List QueuedMessage)
    (send : QueuedMessage → SendResult) (m : QueuedMessage)
    (hnodup : (q.map (fun x => x.id)).Nodup) (hm : m ∈ q) :
    (processQueue q send).filter (fun x => decide (x.id = m.id)) =
      (match send m with
       | .success => []
       | .failed =>
           if m.retryCount ≥ 3 then []
           else [{ m with retryCount := m.retryCount + 1 }]
       | .errored => [{ m with retryCount := m.retryCount + 1 }]) := by
  obtain ⟨l1, l2, rfl⟩ := List.append_of_mem hm
  have hmap : (l1 ++ m :: l2).map (fun x => x.id) =
      l1.map (fun x => x.id) ++ m.id :: l2.map (fun x => x.id) := by
    simp
  rw [hmap] at hnodup
  have h1 : ∀ x ∈ l1, x.id ≠ m.id := by
    intro x hx heq
    have hd := (List.nodup_append.mp hnodup).2.2
    exact hd (by rw [← heq]; exact List.mem_map_of_mem _ hx)
      (List.mem_cons_self _ _)
  have h2 : ∀ x ∈ l2, x.id ≠ m.id := by
    intro x hx heq
    have hc := (List.nodup_append.mp hnodup).2.1
    rw [List.nodup_cons] at hc
    exact hc.1 (by rw [← heq]; exact List.mem_map_of_mem _ hx)
  have hq : (l1 ++ m :: l2).filter (fun x => decide (x.id = m.id)) = [m] := by
    rw [List.filter_append, List.filter_cons]
    simp only [decide_True, if_pos]
    rw [List.filter_eq_nil_iff.mpr (by intro a ha; simp [h1 a ha]),
      List.filter_eq_nil_iff.mpr (by intro a ha; simp [h2 a ha])]
    simp
  rw [processQueue, List.foldl_append, List.foldl_cons]
  rw [filter_foldl_processEntry_ne send m.id l2 _ h2]
  have hst : ((l1 ++ m :: l2).foldl
      (fun st x => processEntry st x (send x)) (l1 ++ m :: l2)) = _ := rfl
  have hpre : ((l1.foldl (fun st x => processEntry st x (send x)) (l1 ++ m :: l2)).filter
      (fun x => decide (x.id = m.id))) = [m] := by
    rw [filter_foldl_processEntry_ne send m.id l1 _ h1, hq]
  cases hres : send m with
  | success =>
    rw [processEntry]
    exact filter_removeFromQueue_self m.id _
  | failed =>
    show ((if m.retryCount ≥ 3 then removeFromQueue (incrementRetry _ m.id) m.id
        else incrementRetry _ m.id)).filter (fun x => decide (x.id = m.id)) = _
    by_cases h3 : m.retryCount ≥ 3
    · rw [if_pos h3, if_pos h3]
      exact filter_removeFromQueue_self m.id _
    · rw [if_neg h3, if_neg h3, filter_incrementRetry_self m.id, hpre]
      rfl
  | errored =>
    rw [processEntry, filter_incrementRetry_self m.id, hpre]
    rfl

/-! ## Lemmas about the encrypted middleware dedup loop -/

theorem mw_keyOf_mkMessage (cur other : String) (r : EncRow) (content : String) :
    EncMw.keyOfMessage (EncMw.mkMessage cur other r content) =
      EncMw.msgKey r.sender_username content r.timestamp r.content_type := rfl

theorem mw_loop_cons_invisible (dec : String → Option String) (cur other : String)
    (r : EncRow) (rs : List EncRow) (seen : List EncMw.MsgKey)
    (hrec : r.receiver_username ≠ cur) :
    EncMw.decryptLoop dec cur other (r :: rs) seen =
      EncMw.decryptLoop dec cur other rs seen := by
  simp [EncMw.decryptLoop, hrec]

theorem mw_loop_cons_undec (dec : String → Option String) (cur other : String)
    (r : EncRow) (rs : List EncRow) (seen : List EncMw.MsgKey)
    (hrec : r.receiver_username = cur) (hdec : dec r.encrypted_content = none) :
    EncMw.decryptLoop dec cur other (r :: rs) seen =
      EncMw.decryptLoop dec cur other rs seen := by
  simp [EncMw.decryptLoop, hrec, hdec]

theorem mw_loop_cons_seen (dec : String → Option String) (cur other : String)
    (r : EncRow) (rs : List EncRow) (seen : List EncMw.MsgKey) (content : String)
    (hrec : r.receiver_username = cur) (hdec : dec r.encrypted_content = some content)
    (hsk : EncMw.msgKey r.sender_username content r.timestamp r.content_type
      ∈ seen) :
    EncMw.decryptLoop dec cur other (r :: rs) seen =
      EncMw.decryptLoop dec cur other rs seen := by
  simp [EncMw.decryptLoop, hrec, hdec, hsk]

theorem mw_loop_cons_emit (dec : String → Option String) (cur other : String)
    (r : EncRow) (rs : List EncRow) (seen : List EncMw.MsgKey) (content : String)
    (hrec : r.receiver_username = cur) (hdec : dec r.encrypted_content = some content)
    (hsk : EncMw.msgKey r.sender_username content r.timestamp r.content_type
      ∉ seen) :
    EncMw.decryptLoop dec cur other (r :: rs) seen =
      EncMw.mkMessage cur other r content ::
        EncMw.decryptLoop dec cur other rs
          (EncMw.msgKey r.sender_username content r.timestamp r.content_type
            :: seen) := by
  simp [EncMw.decryptLoop, hrec, hdec, hsk]

theorem mw_loop_key_not_seen (dec : String → Option String) (cur other : String) :
    ∀ (rows : List EncRow) (seen : List EncMw.MsgKey) (m : DecMessage),
    m ∈ EncMw.decryptLoop dec cur other rows seen →
    EncMw.keyOfMessage m ∉ seen := by
  intro rows
  induction rows with
  | nil => intro seen m hm; simp [EncMw.decryptLoop] at hm
  | cons r rs ih =>
    intro seen m hm
    by_cases hrec : r.receiver_username = cur
    · cases hdec : dec r.encrypted_content with
      | none =>
        rw [mw_loop_cons_undec dec cur other r rs seen hrec hdec] at hm
        exact ih seen m hm
      | some content =>
        by_cases hsk : EncMw.msgKey r.sender_username content r.timestamp
            r.content_type ∈ seen
        · rw [mw_loop_cons_seen dec cur other r rs seen content hrec hdec hsk] at hm
          exact ih seen m hm
        · rw [mw_loop_cons_emit dec cur other r rs seen content hrec hdec hsk] at hm
          rcases List.mem_cons.mp hm with h | h
          · subst h
            rw [mw_keyOf_mkMessage]
            exact hsk
          · intro hcon
            exact ih _ m h (List.mem_cons_of_mem _ hcon)
    · rw [mw_loop_cons_invisible dec cur other r rs seen hrec] at hm
      exact ih seen m hm

theorem mw_loop_keys_nodup (dec : String → Option String) (cur other : String) :
    ∀ (rows : List EncRow) (seen : List EncMw.MsgKey),
    ((EncMw.decryptLoop dec cur other rows seen).map EncMw.keyOfMessage).Nodup := by
  intro rows
  induction rows with
  | nil => intro seen; simp [EncMw.decryptLoop]
  | cons r rs ih =>
    intro seen
    by_cases hrec : r.receiver_username = cur
    · cases hdec : dec r.encrypted_content with
      | none =>
        rw [mw_loop_cons_undec dec cur other r rs seen hrec hdec]
        exact ih seen
      | some content =>
        by_cases hsk : EncMw.msgKey r.sender_username content r.timestamp
            r.content_type ∈ seen
        · rw [mw_loop_cons_seen dec cur other r rs seen content hrec hdec hsk]
          exact ih seen
        · rw [mw_loop_cons_emit dec cur other r rs seen content hrec hdec hsk]
          rw [List.map_cons, List.nodup_cons]
          refine ⟨?_, ih _⟩
          rw [mw_keyOf_mkMessage]
          intro hcon
          obtain ⟨m, hm, hkm⟩ := List.mem_map.mp hcon
          have hnot := mw_loop_key_not_seen dec cur other rs _ m hm
          rw [hkm] at hnot
          exact hnot (List.mem_cons_self _ _)
    · rw [mw_loop_cons_invisible dec cur other r rs seen hrec]
      exact ih seen

theorem mw_loop_count (dec : String → Option String) (cur other : String) :
    ∀ (rows : List EncRow) (seen : List EncMw.MsgKey) (k : EncMw.MsgKey),
    (∃ r ∈ rows, EncMw.decKey dec cur r = some k) → k ∉ seen →
    List.countP (fun m => decide (EncMw.keyOfMessage m = k))
      (EncMw.decryptLoop dec cur other rows seen) = 1 := by
  intro rows
  induction rows with
  | nil =>
    rintro seen k ⟨r, hr, _⟩ _
    simp at hr
  | cons r rs ih =>
    rintro seen k ⟨r1, hr1, hkey⟩ hks
    by_cases hrec : r.receiver_username = cur
    · cases hdec : dec r.encrypted_content with
      | none =>
        have hr1' : r1 ∈ rs := by
          rcases List.mem_cons.mp hr1 with h | h
          · subst h
            rw [EncMw.decKey, if_pos hrec, hdec] at hkey
            simp at hkey
          · exact h
        rw [mw_loop_cons_undec dec cur other r rs seen hrec hdec]
        exact ih seen k ⟨r1, hr1', hkey⟩ hks
      | some content =>
        by_cases hkk : EncMw.msgKey r.sender_username content r.timestamp
            r.content_type = k
        · rw [mw_loop_cons_emit dec cur other r rs seen content hrec hdec
            (by rw [hkk]; exact hks)]
          rw [List.countP_cons]
          have hrest : List.countP (fun m => decide (EncMw.keyOfMessage m = k))
              (EncMw.decryptLoop dec cur other rs
                (EncMw.msgKey r.sender_username content r.timestamp r.content_type
                  :: seen)) = 0 := by
            rw [List.countP_eq_zero]
            intro m hm
            have hnot := mw_loop_key_not_seen dec cur other rs _ m hm
            simp only [decide_eq_true_eq]
            intro he
            apply hnot
            rw [he, ← hkk]
            exact List.mem_cons_self _ _
          rw [hrest]
          simp [mw_keyOf_mkMessage, hkk]
        · have hr1' : r1 ∈ rs := by
            rcases List.mem_cons.mp hr1 with h | h
            · subst h
              rw [EncMw.decKey, if_pos hrec, hdec] at hkey
              exact absurd (by simpa using hkey) hkk
            · exact h
          by_cases hsk : EncMw.msgKey r.sender_username content r.timestamp
              r.content_type ∈ seen
          · rw [mw_loop_cons_seen dec cur other r rs seen content hrec hdec hsk]
            exact ih seen k ⟨r1, hr1', hkey⟩ hks
          · rw [mw_loop_cons_emit dec cur other r rs seen content hrec hdec hsk]
            have hnotin : k ∉ (EncMw.msgKey r.sender_username content
                r.timestamp r.content_type :: seen) := by
              intro hc
              rcases List.mem_cons.mp hc with h | h
              · exact hkk h.symm
              · exact hks h
            rw [List.countP_cons, ih _ k ⟨r1, hr1', hkey⟩ hnotin]
            simp [mw_keyOf_mkMessage, hkk]
    · have hr1' : r1 ∈ rs := by
        rcases List.mem_cons.mp hr1 with h | h
        · subst h
          rw [EncMw.decKey, if_neg hrec] at hkey
          simp at hkey
        · exact h
      rw [mw_loop_cons_invisible dec cur other r rs seen hrec]
      exact ih seen k ⟨r1, hr1', hkey⟩ hks

theorem mw_loop_first_wins (dec : String → Option String) (cur other : String) :
    ∀ (rows : List EncRow) (seen : List EncMw.MsgKey) (k : EncMw.MsgKey) (r0 : EncRow),
    rows.find? (fun r => decide (EncMw.decKey dec cur r = some k)) = some r0 →
    k ∉ seen →
    ∀ m ∈ EncMw.decryptLoop dec cur other rows seen,
      EncMw.keyOfMessage m = k → m.id = r0.id := by
  intro rows
  induction rows with
  | nil =>
    intro seen k r0 hfind _ m hm
    simp at hfind
  | cons r rs ih =>
    intro seen k r0 hfind hks m hm hkm
    by_cases hdk : EncMw.decKey dec cur r = some k
    · have hr0 : r0 = r := by
        rw [List.find?_cons_of_pos _ (by simp only [decide_eq_true_eq]; exact hdk)] at hfind
        exact (Option.some_inj.mp hfind).symm
      subst hr0
      by_cases hrec : r0.receiver_username = cur
      · rw [EncMw.decKey, if_pos hrec] at hdk
        cases hdec : dec r0.encrypted_content with
        | none => rw [hdec] at hdk; simp at hdk
        | some content =>
          rw [hdec] at hdk
          have hdk2 : EncMw.msgKey r0.sender_username content r0.timestamp
              r0.content_type = k := by simpa using hdk
          rw [mw_loop_cons_emit dec cur other r0 rs seen content hrec hdec
            (by rw [hdk2]; exact hks)] at hm
          rcases List.mem_cons.mp hm with h | h
          · rw [h]
            rfl
          · exfalso
            have hnot := mw_loop_key_not_seen dec cur other rs _ m h
            apply hnot
            rw [hkm, ← hdk2]
            exact List.mem_cons_self _ _
      · rw [EncMw.decKey, if_neg hrec] at hdk
        simp at hdk
    · have hfind' : rs.find? (fun r => decide (EncMw.decKey dec cur r = some k)) =
          some r0 := by
        rw [List.find?_cons_of_neg _ (by simp only [decide_eq_true_eq]; exact hdk)] at hfind
        exact hfind
      by_cases hrec : r.receiver_username = cur
      · cases hdec : dec r.encrypted_content with
        | none =>
          rw [mw_loop_cons_undec dec cur other r rs seen hrec hdec] at hm
          exact ih seen k r0 hfind' hks m hm hkm
        | some content =>
          have hkne : EncMw.msgKey r.sender_username content r.timestamp
              r.content_type ≠ k := by
            intro he
            apply hdk
            rw [EncMw.decKey, if_pos hrec, hdec]
            simp [he]
          by_cases hsk : EncMw.msgKey r.sender_username content r.timestamp
              r.content_type ∈ seen
          · rw [mw_loop_cons_seen dec cur other r rs seen content hrec hdec hsk] at hm
            exact ih seen k r0 hfind' hks m hm hkm
          · rw [mw_loop_cons_emit dec cur other r rs seen content hrec hdec hsk] at hm
            rcases List.mem_cons.mp hm with h | h
            · exfalso
              apply hkne
              rw [← hkm, h, mw_keyOf_mkMessage]
            · refine ih _ k r0 hfind' ?_ m h hkm
              intro hc
              rcases List.mem_cons.mp hc with hx | hx
              · exact hkne hx.symm
              · exact hks hx
      · rw [mw_loop_cons_invisible dec cur other r rs seen hrec] at hm
        exact ih seen k r0 hfind' hks m hm hkm

/-! ## Lemmas about the chat library dedup loop -/

theorem chat_keyOf_mkMessage (other : String) (r : EncRow) (content : String) :
    ChatLib.keyOfMessage (ChatLib.mkMessage other r content) = ChatLib.chatKey r := rfl

theorem chat_loop_cons_seen (dec : String → Option String) (cur other : String)
    (r : EncRow) (rs : List EncRow) (seen : List ChatLib.ChatKey)
    (hsk : ChatLib.chatKey r ∈ seen) :
    ChatLib.decryptLoop dec cur other (r :: rs) seen =
      ChatLib.decryptLoop dec cur other rs seen := by
  simp [ChatLib.decryptLoop, hsk]

theorem chat_loop_cons_invisible (dec : String → Option String) (cur other : String)
    (r : EncRow) (rs : List EncRow) (seen : List ChatLib.ChatKey)
    (hsk : ChatLib.chatKey r ∉ seen) (hrec : r.receiver_username ≠ cur) :
    ChatLib.decryptLoop dec cur other (r :: rs) seen =
      ChatLib.decryptLoop dec cur other rs (ChatLib.chatKey r :: seen) := by
  simp [ChatLib.decryptLoop, hsk, hrec]

theorem chat_loop_cons_undec (dec : String → Option String) (cur other : String)
    (r : EncRow) (rs : List EncRow) (seen : List ChatLib.ChatKey)
    (hsk : ChatLib.chatKey r ∉ seen) (hrec : r.receiver_username = cur)
    (hdec : dec r.encrypted_content = none) :
    ChatLib.decryptLoop dec cur other (r :: rs) seen =
      ChatLib.decryptLoop dec cur other rs (ChatLib.chatKey r :: seen) := by
  simp [ChatLib.decryptLoop, hsk, hrec, hdec]

theorem chat_loop_cons_emit (dec : String → Option String) (cur other : String)
    (r : EncRow) (rs : List EncRow) (seen : List ChatLib.ChatKey) (content : String)
    (hsk : ChatLib.chatKey r ∉ seen) (hrec : r.receiver_username = cur)
    (hdec : dec r.encrypted_content = some content) :
    ChatLib.decryptLoop dec cur other (r :: rs) seen =
      ChatLib.mkMessage other r content ::
        ChatLib.decryptLoop dec cur other rs (ChatLib.chatKey r :: seen) := by
  simp [ChatLib.decryptLoop, hsk, hrec, hdec]

theorem chat_loop_key_not_seen (dec : String → Option String) (cur other : String) :
    ∀ (rows : List EncRow) (seen : List ChatLib.ChatKey) (m : DecMessage),
    m ∈ ChatLib.decryptLoop dec cur other rows seen →
    ChatLib.keyOfMessage m ∉ seen := by
  intro rows
  induction rows with
  | nil => intro seen m hm; simp [ChatLib.decryptLoop] at hm
  | cons r rs ih =>
    intro seen m hm
    by_cases hsk : ChatLib.chatKey r ∈ seen
    · rw [chat_loop_cons_seen dec cur other r rs seen hsk] at hm
      exact ih seen m hm
    · by_cases hrec : r.receiver_username = cur
      · cases hdec : dec r.encrypted_content with
        | none =>
          rw [chat_loop_cons_undec dec cur other r rs seen hsk hrec hdec] at hm
          intro hcon
          exact ih _ m hm (List.mem_cons_of_mem _ hcon)
        | some content =>
          rw [chat_loop_cons_emit dec cur other r rs seen content hsk hrec hdec] at hm
          rcases List.mem_cons.mp hm with h | h
          · subst h
            rw [chat_keyOf_mkMessage]
            exact hsk
          · intro hcon
            exact ih _ m h (List.mem_cons_of_mem _ hcon)
      · rw [chat_loop_cons_invisible dec cur other r rs seen hsk hrec] at hm
        intro hcon
        exact ih _ m hm (List.mem_cons_of_mem _ hcon)

theorem chat_loop_keys_nodup (dec : String → Option String) (cur other : String) :
    ∀ (rows : List EncRow) (seen : List ChatLib.ChatKey),
    ((ChatLib.decryptLoop dec cur other rows seen).map ChatLib.keyOfMessage).Nodup := by
  intro rows
  induction rows with
  | nil => intro seen; simp [ChatLib.decryptLoop]
  | cons r rs ih =>
    intro seen
    by_cases hsk : ChatLib.chatKey r ∈ seen
    · rw [chat_loop_cons_seen dec cur other r rs seen hsk]
      exact ih seen
    · by_cases hrec : r.receiver_username = cur
      · cases hdec : dec r.encrypted_content with
        | none =>
          rw [chat_loop_cons_undec dec cur other r rs seen hsk hrec hdec]
          exact ih _
        | some content =>
          rw [chat_loop_cons_emit dec cur other r rs seen content hsk hrec hdec]
          rw [List.map_cons, List.nodup_cons]
          refine ⟨?_, ih _⟩
          rw [chat_keyOf_mkMessage]
          intro hcon
          obtain ⟨m, hm, hkm⟩ := List.mem_map.mp hcon
          have hnot := chat_loop_key_not_seen dec cur other rs _ m hm
          rw [hkm] at hnot
          exact hnot (List.mem_cons_self _ _)
      · rw [chat_loop_cons_invisible dec cur other r rs seen hsk hrec]
        exact ih _

/-! ## Final sort transfer -/

theorem sortByTimestamp_perm (l : List DecMessage) : (sortByTimestamp l).Perm l :=
  List.perm_insertionSort _ l

/-! ## Claim analysis -/

/-- C7: canEditMessage returns true exactly when the requester equals the
sender and now minus the creation timestamp is at most five minutes
(300000 ms); the boundary is inclusive: at exactly five minutes the message
is still editable, and one millisecond past five minutes it is not. -/
theorem edit_window_boundary (messageTimestamp now : Int)
    (senderUsername currentUsername : String) :
    (canEditMessage messageTimestamp senderUsername currentUsername now = true ↔
      senderUsername = currentUsername ∧
        now - messageTimestamp ≤ 5 * 60 * 1000) ∧
    canEditMessage messageTimestamp senderUsername senderUsername
      (messageTimestamp + 5 * 60 * 1000) = true ∧
    canEditMessage messageTimestamp senderUsername senderUsername
      (messageTimestamp + 5 * 60 * 1000 + 1) = false := by
  refine ⟨?_, ?_, ?_⟩
  · rw [canEditMessage]
    by_cases h : senderUsername = currentUsername
    · simp [h]
    · simp [h]
  · rw [canEditMessage]
    simp only [ne_eq, not_true_eq_false, if_false, decide_eq_true_eq]
    omega
  · rw [canEditMessage]
    simp only [ne_eq, not_true_eq_false, if_false, decide_eq_false_iff_not]
    omega

/-- C9 counterexample: enqueue ids are the millisecond clock rendered as a
string, so two enqueue calls within the same millisecond receive the same
localId rather than distinct ones, and the queue then holds two entries
with equal ids. -/
theorem enqueue_id_counterexample :
    (addToQueue 1700000000000 "hello" "text" "bob" []).2 =
      (addToQueue 1700000000000 "later" "text" "bob"
        (addToQueue 1700000000000 "hello" "text" "bob" []).1).2 ∧
    ((addToQueue 1700000000000 "later" "text" "bob"
        (addToQueue 1700000000000 "hello" "text" "bob" []).1).1.map
      (fun m => m.id)) =
      [(1700000000000 : Nat).repr, (1700000000000 : Nat).repr] := by
  exact ⟨rfl, rfl⟩

/-- C9 as corrected: addToQueue always succeeds synchronously, appends
exactly one entry whose retryCount is 0 and whose localId is the string
form of the current millisecond clock, and returns that id; consequently
two calls made with the same clock value receive the same id, not distinct
ones. -/
theorem enqueue_amended (now : Nat) (content msgType receiver : String)
    (content2 msgType2 receiver2 : String)
    (queue queue2 : List QueuedMessage) :
    (addToQueue now content msgType receiver queue).1 =
      queue ++ [{ id := toString now, content := content, msgType := msgType,
                  receiverUsername := receiver, timestamp := now,
                  retryCount := 0 }] ∧
    (addToQueue now content msgType receiver queue).2 = toString now ∧
    (addToQueue now content msgType receiver queue).2 =
      (addToQueue now content2 msgType2 receiver2 queue2).2 :=
  ⟨rfl, rfl, rfl⟩

/-- C3 counterexample: the chunking variant batch updater filters only by
id, not by current status; invoking it to mark a row delivered while the
row is already read regresses the row from read back to delivered. -/
theorem batch_delivered_counterexample :
    batchUpdateMessageStatus 5 ["m1"] "delivered"
        [{ id := "m1", status := "read", updated_at := 0 }] =
      [{ id := "m1", status := "delivered", updated_at := 5 }] := by
  decide

/-- C3 as corrected: the messageStatus library batchMarkAsDelivered guards
the update with status sent, so rows listed in the id set move to delivered
only from sent, rows in any other status (including read) are untouched,
and unlisted rows are untouched; the chunking variant batchUpdateMessageStatus
has no such guard and overwrites the status of every listed row, so calling
it with delivered does regress a read row. -/
theorem batch_delivered_amended (now : Nat) (ids : List String) (status : String)
    (db : List StatusRow) (i : Nat) (r : StatusRow) (hr : db[i]? = some r) :
    (r.status ≠ "sent" → (batchMarkAsDelivered now ids db)[i]? = some r) ∧
    (r.status = "sent" → r.id ∈ ids →
      (batchMarkAsDelivered now ids db)[i]? =
        some { r with status := "delivered", updated_at := now }) ∧
    (r.id ∉ ids → (batchMarkAsDelivered now ids db)[i]? = some r) ∧
    (r.id ∈ ids → (batchUpdateMessageStatus now ids status db)[i]? =
        some { r with status := status, updated_at := now }) := by
  have hmark : (batchMarkAsDelivered now ids db)[i]? =
      some (if r.id ∈ ids ∧ r.status = "sent" then
        { r with status := "delivered", updated_at := now } else r) := by
    rw [batchMarkAsDelivered, List.getElem?_map, hr]
    rfl
  have hupd : (batchUpdateMessageStatus now ids status db)[i]? =
      some (if r.id ∈ ids then
        { r with status := status, updated_at := now } else r) := by
    rw [batchUpdateMessageStatus, List.getElem?_map, hr]
    rfl
  refine ⟨?_, ?_, ?_, ?_⟩
  · intro hst
    rw [hmark, if_neg (fun hc => hst hc.2)]
  · intro hst hid
    rw [hmark, if_pos ⟨hid, hst⟩]
  · intro hid
    rw [hmark, if_neg (fun hc => hid hc.1)]
  · intro hid
    rw [hupd, if_pos hid]

/-- Witness for the corrected C3 statement at a concrete table: a read row
listed in the id set is untouched by batchMarkAsDelivered and overwritten
by batchUpdateMessageStatus. -/
theorem batch_delivered_amended_witness :
    ([{ id := "m1", status := "read", updated_at := 0 }] :
        List StatusRow)[0]? = some { id := "m1", status := "read", updated_at := 0 } ∧
    (batchMarkAsDelivered 5 ["m1"]
        [{ id := "m1", status := "read", updated_at := 0 }])[0]? =
      some { id := "m1", status := "read", updated_at := 0 } ∧
    (batchUpdateMessageStatus 5 ["m1"] "delivered"
        [{ id := "m1", status := "read", updated_at := 0 }])[0]? =
      some { id := "m1", status := "delivered", updated_at := 5 } := by
  refine ⟨by decide, ?_, ?_⟩
  · exact (batch_delivered_amended 5 ["m1"] "delivered"
      [{ id := "m1", status := "read", updated_at := 0 }] 0
      { id := "m1", status := "read", updated_at := 0 } (by decide)).1
      (by decide)
  · exact (batch_delivered_amended 5 ["m1"] "delivered"
      [{ id := "m1", status := "read", updated_at := 0 }] 0
      { id := "m1", status := "read", updated_at := 0 } (by decide)).2.2.2
      (by decide)

/-- C2: for text longer than the 1000-unit threshold, slicing through
sendLargeMessage and reading the complete fragment set back through
processChunkedMessages yields exactly one logical message whose content is
the original string; concatenating the fragment contents in index order
reproduces the original string exactly. -/
theorem chunk_roundtrip (sender receiver gid : String) (content : List Char)
    (ts : Nat) (h : 1000 < content.length) :
    ((sendLargeMessageRows sender receiver content gid ts).map
        (fun r => r.content)).flatten = content ∧
    (processChunkedMessages (sendLargeMessageRows sender receiver content gid ts)).map
        (fun r => r.content) = [content] := by
  have hc : content ≠ [] := by
    intro h0
    rw [h0] at h
    simp at h
  constructor
  · rw [sendLargeMessageRows, chunkRowsGo_map_content, chunksOf_flatten]
  · exact processChunked_sendLarge sender receiver gid content ts hc

/-- Witness for C2 at a concrete 1001-unit string. -/
theorem chunk_roundtrip_witness :
    1000 < (List.replicate 1001 'a').length ∧
    (processChunkedMessages (sendLargeMessageRows "alice" "bob"
        (List.replicate 1001 'a') "g1" 0)).map (fun r => r.content) =
      [List.replicate 1001 'a'] := by
  have hlen : (List.replicate 1001 'a').length = 1001 := List.length_replicate 1001 'a'
  refine ⟨by rw [hlen]; omega, ?_⟩
  exact (chunk_roundtrip "alice" "bob" "g1" (List.replicate 1001 'a') 0
    (by rw [hlen]; omega)).2

theorem lengthsOf_zero (n : Nat) : lengthsOf n 0 = [] := by
  rw [lengthsOf]

theorem lengthsOf_step (n m : Nat) :
    lengthsOf n (m + 1) = (1 + min (n - 1) m) :: lengthsOf n (m - (n - 1)) := by
  rw [lengthsOf]

theorem lengthsOf_2500 : lengthsOf 800 2500 = [800, 800, 800, 100] := by
  have h1 : lengthsOf 800 2500 = 800 :: lengthsOf 800 1700 := by
    have h := lengthsOf_step 800 2499
    norm_num at h
    exact h
  have h2 : lengthsOf 800 1700 = 800 :: lengthsOf 800 900 := by
    have h := lengthsOf_step 800 1699
    norm_num at h
    exact h
  have h3 : lengthsOf 800 900 = 800 :: lengthsOf 800 100 := by
    have h := lengthsOf_step 800 899
    norm_num at h
    exact h
  have h4 : lengthsOf 800 100 = 100 :: lengthsOf 800 0 := by
    have h := lengthsOf_step 800 99
    norm_num at h
    exact h
  rw [h1, h2, h3, h4, lengthsOf_zero]

theorem chunkRowsGo_map_index (sender receiver gid : String) (ts : Nat)
    (total : Int) : ∀ (i : Nat) (cs : List (List Char)),
    (chunkRowsGo sender receiver gid ts total i cs).map chunkIndexOf =
      (List.range cs.length).map (fun j => ((i + j : Nat) : Int)) := by
  intro i cs
  induction cs generalizing i with
  | nil => simp [chunkRowsGo]
  | cons c cs ih =>
    rw [chunkRowsGo, List.map_cons, ih (i + 1)]
    rw [List.length_cons, List.range_succ_eq_map]
    rw [List.map_cons, List.map_map]
    refine List.cons_eq_cons.mpr ⟨?_, ?_⟩
    · simp [chunkIndexOf]
    · apply List.map_congr_left
      intro j _
      simp only [Function.comp_apply]
      congr 1
      omega

/-- C8: sendMessage stores a single row with no chunk metadata for text of
length at most the 1000-unit threshold; for longer text it splits the
content into contiguous, non-overlapping slices of at most 800 units in
original order, each stamped with the shared fresh group id, its zero-based
index and total_chunks equal to the fragment count; a 2500-unit message
yields exactly 4 fragments of 800, 800, 800 and 100 units. -/
theorem send_chunking_layout (sender receiver gid : String) (content : List Char)
    (ts : Nat) (hs : sender ≠ "") (hr : receiver ≠ "") (hc : content ≠ []) :
    (content.length ≤ 1000 →
      sendMessageRows sender receiver content "text" gid ts =
        some [{ id := "", sender_username := sender, receiver_username := receiver,
                content := content, content_type := "text", status := "sent",
                message_timestamp := ts, is_edited := false, chunk_info := none }]) ∧
    (1000 < content.length →
      sendMessageRows sender receiver content "text" gid ts =
        some (sendLargeMessageRows sender receiver content gid ts) ∧
      (sendLargeMessageRows sender receiver content gid ts).map (fun r => r.content) =
        chunksOf 800 content ∧
      ((sendLargeMessageRows sender receiver content gid ts).map
          (fun r => r.content)).flatten = content ∧
      (∀ r ∈ sendLargeMessageRows sender receiver content gid ts,
        r.content.length ≤ 800 ∧ isChunkedRow r = true ∧ chunkKey r = gid ∧
          groupTotalOf r =
            ((sendLargeMessageRows sender receiver content gid ts).length : Int)) ∧
      (sendLargeMessageRows sender receiver content gid ts).map chunkIndexOf =
        (List.range
          (sendLargeMessageRows sender receiver content gid ts).length).map Int.ofNat) ∧
    (content.length = 2500 →
      (sendLargeMessageRows sender receiver content gid ts).map
          (fun r => r.content.length) = [800, 800, 800, 100] ∧
      (sendLargeMessageRows sender receiver content gid ts).length = 4) := by
  have hval : ¬(sender = "" ∨ receiver = "" ∨ content = []) := by
    push_neg
    exact ⟨hs, hr, hc⟩
  have hcont : (sendLargeMessageRows sender receiver content gid ts).map
      (fun r => r.content) = chunksOf 800 content :=
    chunkRowsGo_map_content sender receiver gid ts _ 0 _
  have hlen : (sendLargeMessageRows sender receiver content gid ts).length =
      (chunksOf 800 content).length :=
    chunkRowsGo_length sender receiver gid ts _ 0 _
  have hlens : (sendLargeMessageRows sender receiver content gid ts).map
      (fun r => r.content.length) = lengthsOf 800 content.length := by
    have hm : (sendLargeMessageRows sender receiver content gid ts).map
        (fun r => r.content.length) =
        ((sendLargeMessageRows sender receiver content gid ts).map
          (fun r => r.content)).map List.length := by
      rw [List.map_map]
      rfl
    rw [hm, hcont, chunksOf_map_length]
  refine ⟨?_, ?_, ?_⟩
  · intro hle
    rw [sendMessageRows, if_neg hval, if_neg ?_]
    intro hx
    exact absurd hx.2 (not_lt.mpr hle)
  · intro hgt
    refine ⟨?_, hcont, ?_, ?_, ?_⟩
    · rw [sendMessageRows, if_neg hval, if_pos ⟨rfl, hgt⟩]
    · rw [hcont, chunksOf_flatten]
    · intro r hrr
      have h1 := chunkRowsGo_mem sender receiver gid ts _ 0 _ r hrr
      refine ⟨?_, h1.1, h1.2.1, ?_⟩
      · have : r.content ∈ (sendLargeMessageRows sender receiver content gid ts).map
            (fun r => r.content) := List.mem_map_of_mem _ hrr
        rw [hcont] at this
        exact chunksOf_chunk_length_le 800 (by omega) content _ this
      · rw [h1.2.2.1, hlen]
    · have h2 : (sendLargeMessageRows sender receiver content gid ts).map chunkIndexOf =
          (List.range (chunksOf 800 content).length).map (fun j => ((0 + j : Nat) : Int)) :=
        chunkRowsGo_map_index sender receiver gid ts
          ((chunksOf 800 content).length : Int) 0 (chunksOf 800 content)
      rw [h2, ← hlen]
      apply List.map_congr_left
      intro j _
      simp [Int.ofNat_eq_coe]
  · intro h25
    have hl : (sendLargeMessageRows sender receiver content gid ts).map
        (fun r => r.content.length) = [800, 800, 800, 100] := by
      rw [hlens, h25, lengthsOf_2500]
    refine ⟨hl, ?_⟩
    have : ((sendLargeMessageRows sender receiver content gid ts).map
        (fun r => r.content.length)).length =
        (sendLargeMessageRows sender receiver content gid ts).length := by
      rw [List.length_map]
    rw [← this, hl]
    rfl

/-- Witness for C8 at a concrete 2500-unit string: four fragments of 800,
800, 800 and 100 units. -/
theorem send_chunking_layout_witness :
    ("alice" : String) ≠ "" ∧ ("bob" : String) ≠ "" ∧
    List.replicate 2500 'a' ≠ ([] : List Char) ∧
    (List.replicate 2500 'a').length = 2500 ∧
    (sendLargeMessageRows "alice" "bob" (List.replicate 2500 'a') "g1" 0).map
        (fun r => r.content.length) = [800, 800, 800, 100] ∧
    (sendLargeMessageRows "alice" "bob" (List.replicate 2500 'a') "g1" 0).length = 4 := by
  have hne : List.replicate 2500 'a' ≠ ([] : List Char) := by
    intro h0
    have := congrArg List.length h0
    rw [List.length_replicate] at this
    simp at this
  have hlen : (List.replicate 2500 'a').length = 2500 := List.length_replicate 2500 'a'
  have h := (send_chunking_layout "alice" "bob" "g1" (List.replicate 2500 'a') 0
    (by decide) (by decide) hne).2.2 hlen
  exact ⟨by decide, by decide, hne, hlen, h.1, h.2⟩

/-- C5: a chunk group whose observed fragment count is strictly below its
total_chunks is never reassembled into a merged logical message: the group
contributes exactly its fragments sorted by index, and every fragment that
is present appears individually in the read result. -/
theorem partial_chunk_safety (rows : List Row) (g : String) (t : Int)
    (htot : ∀ f ∈ groupRows rows g, groupTotalOf f = t)
    (hlt : ((groupRows rows g).length : Int) < t) :
    reassembleGroup (groupRows rows g) = sortByIndex (groupRows rows g) ∧
    ∀ f ∈ groupRows rows g, f ∈ processChunkedMessages rows := by
  by_cases hne : groupRows rows g = []
  · refine ⟨?_, ?_⟩
    · rw [hne]
      rfl
    · intro f hf
      rw [hne] at hf
      simp at hf
  · have heq : reassembleGroup (groupRows rows g) = sortByIndex (groupRows rows g) :=
      reassembleGroup_of_incomplete (groupRows rows g) t htot hne
        (by omega)
    refine ⟨heq, ?_⟩
    intro f hf
    have hmem := (mem_groupRows rows g f).mp hf
    have hg : g ∈ chunkGroupIds rows := by
      have := chunkKey_mem_chunkGroupIds rows f hmem.1 hmem.2.1
      rw [hmem.2.2] at this
      exact this
    refine mem_processChunkedMessages_of_group rows g hg f ?_
    rw [heq]
    exact (mem_sortByIndex f _).mpr hf

/-- Witness for C5 at a concrete group: 2 of 3 fragments present, each
surfaced individually and no merged message produced. -/
theorem partial_chunk_safety_witness :
    (∀ f ∈ groupRows partialRows "g5", groupTotalOf f = 3) ∧
    ((groupRows partialRows "g5").length : Int) < 3 ∧
    reassembleGroup (groupRows partialRows "g5") =
      sortByIndex (groupRows partialRows "g5") ∧
    partialFrag0 ∈ processChunkedMessages partialRows ∧
    partialFrag1 ∈ processChunkedMessages partialRows := by
  have h := partial_chunk_safety partialRows "g5" 3 (by decide) (by decide)
  refine ⟨by decide, by decide, h.1, ?_, ?_⟩
  · exact h.2 partialFrag0 (by decide)
  · exact h.2 partialFrag1 (by decide)

/-- C6 counterexample: a group with totalChunks 2 holding fragments at
indices 0, 0 and 1 is not reassembled at all (no emitted row has its chunk
metadata cleared), although the same group with one fragment per index
reassembles into a single merged message; duplicates are therefore not
dropped by keeping the first-seen fragment per index. -/
theorem duplicate_chunk_counterexample :
    ((processChunkedMessages dupChunkRows).filter
      (fun r => r.chunk_info.isNone)) = [] ∧
    (processChunkedMessages dupChunkRows).length = 3 ∧
    (processChunkedMessages dedupChunkRows).map (fun r => r.content) =
      [['A', 'C']] := by
  refine ⟨by decide, by decide, by decide⟩

/-- C6 as corrected: duplicate fragments at the same index are not
deduplicated; a group whose distinct indices already cover totalChunks but
which contains a duplicated index has an observed count exceeding
totalChunks, so it is never reassembled, and every fragment, duplicates
included, is surfaced individually in the read result. -/
theorem duplicate_chunk_amended (rows : List Row) (g : String) (t : Int)
    (htot : ∀ f ∈ groupRows rows g, groupTotalOf f = t)
    (hdup : ¬((groupRows rows g).map chunkIndexOf).Nodup)
    (hdistinct : ((((groupRows rows g).map chunkIndexOf).dedup).length : Int) = t) :
    reassembleGroup (groupRows rows g) = sortByIndex (groupRows rows g) ∧
    ∀ f ∈ groupRows rows g, f ∈ processChunkedMessages rows := by
  have hne : groupRows rows g ≠ [] := by
    intro h0
    rw [h0] at hdup
    simp at hdup
  have hgt : t < ((groupRows rows g).length : Int) := by
    have hsub : (((groupRows rows g).map chunkIndexOf).dedup).Sublist
        ((groupRows rows g).map chunkIndexOf) := List.dedup_sublist _
    have hle : (((groupRows rows g).map chunkIndexOf).dedup).length ≤
        ((groupRows rows g).map chunkIndexOf).length := hsub.length_le
    have hneq : (((groupRows rows g).map chunkIndexOf).dedup).length ≠
        ((groupRows rows g).map chunkIndexOf).length := by
      intro he
      have : ((groupRows rows g).map chunkIndexOf).dedup =
          (groupRows rows g).map chunkIndexOf := hsub.eq_of_length he
      apply hdup
      rw [← this]
      exact List.nodup_dedup _
    have hmaplen : ((groupRows rows g).map chunkIndexOf).length =
        (groupRows rows g).length := List.length_map _ _
    omega
  have heq : reassembleGroup (groupRows rows g) = sortByIndex (groupRows rows g) :=
    reassembleGroup_of_incomplete (groupRows rows g) t htot hne (by omega)
  refine ⟨heq, ?_⟩
  intro f hf
  have hmem := (mem_groupRows rows g f).mp hf
  have hg : g ∈ chunkGroupIds rows := by
    have := chunkKey_mem_chunkGroupIds rows f hmem.1 hmem.2.1
    rw [hmem.2.2] at this
    exact this
  refine mem_processChunkedMessages_of_group rows g hg f ?_
  rw [heq]
  exact (mem_sortByIndex f _).mpr hf

/-- Witness for the corrected C6 statement at the concrete duplicated
group: all three fragments, the duplicate included, are surfaced. -/
theorem duplicate_chunk_amended_witness :
    (∀ f ∈ groupRows dupChunkRows "g6", groupTotalOf f = 2) ∧
    ¬((groupRows dupChunkRows "g6").map chunkIndexOf).Nodup ∧
    dupFrag0 ∈ processChunkedMessages dupChunkRows ∧
    dupFrag0b ∈ processChunkedMessages dupChunkRows ∧
    dupFrag1 ∈ processChunkedMessages dupChunkRows := by
  have h := duplicate_chunk_amended dupChunkRows "g6" 2 (by decide) (by decide)
    (by decide)
  refine ⟨by decide, by decide, ?_, ?_, ?_⟩
  · exact h.2 dupFrag0 (by decide)
  · exact h.2 dupFrag0b (by decide)
  · exact h.2 dupFrag1 (by decide)

/-- C10: the chunking read path appends every reconstructed or surfaced
chunk group after all regular rows without a final re-sort, so whenever the
fetched rows contain a regular row strictly newer than every fragment of
some chunk group, the returned list is not in ascending timestamp order. -/
theorem read_order_not_sorted (rows : List Row) (r c : Row)
    (hr : r ∈ rows) (hreg : isChunkedRow r = false)
    (hc : c ∈ rows) (hch : isChunkedRow c = true)
    (hts : ∀ f ∈ groupRows rows (chunkKey c),
      f.message_timestamp < r.message_timestamp) :
    ¬ List.Pairwise (fun a b => a.timestamp ≤ b.timestamp) (getMessagesView rows) := by
  intro hpair
  have hrmem : toView r ∈ (regularMessages rows).map toView := by
    refine List.mem_map_of_mem toView ?_
    rw [regularMessages]
    refine List.mem_filter.mpr ⟨hr, ?_⟩
    rw [hreg]
    rfl
  have hgmem : chunkKey c ∈ chunkGroupIds rows :=
    chunkKey_mem_chunkGroupIds rows c hc hch
  have hcin : c ∈ groupRows rows (chunkKey c) :=
    (mem_groupRows rows (chunkKey c) c).mpr ⟨hc, hch, rfl⟩
  have hfne : groupRows rows (chunkKey c) ≠ [] := by
    intro h0
    rw [h0] at hcin
    simp at hcin
  obtain ⟨e, he, f, hf, htse⟩ := reassembleGroup_timestamp_witness _ hfne
  have hemem : toView e ∈ (reconstructedMessages rows).map toView := by
    refine List.mem_map_of_mem toView ?_
    rw [reconstructedMessages, List.mem_flatten]
    exact ⟨reassembleGroup (groupRows rows (chunkKey c)),
      List.mem_map_of_mem _ hgmem, he⟩
  rw [getMessagesView, processChunkedMessages, List.map_append] at hpair
  have hcross := (List.pairwise_append.mp hpair).2.2 (toView r) hrmem (toView e) hemem
  have h1 : (toView r).timestamp = r.message_timestamp := rfl
  have h2 : (toView e).timestamp = e.message_timestamp := rfl
  have h3 : e.message_timestamp < r.message_timestamp := by
    rw [htse]
    exact hts f hf
  rw [h1, h2] at hcross
  omega

/-- Witness for C10 at a concrete fetch: a complete chunk group created at
time 5 and a regular row created at time 10, fetched in ascending order,
produce a returned list that is not sorted by timestamp. -/
theorem read_order_not_sorted_witness :
    regRow10 ∈ readRows10 ∧ chRow10 ∈ readRows10 ∧
    (∀ f ∈ groupRows readRows10 (chunkKey chRow10),
      f.message_timestamp < regRow10.message_timestamp) ∧
    ¬ List.Pairwise (fun a b => a.timestamp ≤ b.timestamp)
      (getMessagesView readRows10) := by
  refine ⟨by decide, by decide, by decide, ?_⟩
  exact read_order_not_sorted readRows10 regRow10 chRow10 (by decide) (by decide)
    (by decide) (by decide) (by decide)

/-- C1 counterexample: an entry whose send resolves false on every drain is
still in the queue immediately after its 3rd consecutive failure, carrying
retryCount 3, contradicting the claim that it is dropped as soon as the
incremented retryCount reaches 3. -/
theorem retry_ceiling_counterexample :
    drainAll [queuedM0] [alwaysFail, alwaysFail, alwaysFail] =
      [{ queuedM0 with retryCount := 3 }] ∧
    drainAll [queuedM0] [alwaysFail, alwaysFail, alwaysFail] ≠ [] := by
  refine ⟨by decide, by decide⟩

/-- C1 as corrected: every pass whose send resolves false or rejects
increments the retryCount of the entry, but the drop check compares the
snapshot value captured before the increment against 3, and the rejection
path has no drop check at all.  Hence a false-resolving entry is removed
only on the pass that starts with retryCount at least 3 (the 4th
consecutive failure), is still present with retryCount 3 after the 3rd,
an entry failing twice and then succeeding is removed on success, and a
rejecting entry is never dropped no matter how large its retryCount is. -/
theorem retry_ceiling_amended :
    (∀ (q : List QueuedMessage) (send : QueuedMessage → SendResult)
        (m : QueuedMessage),
      (q.map (fun x => x.id)).Nodup → m ∈ q →
      (processQueue q send).filter (fun x => decide (x.id = m.id)) =
        (match send m with
         | .success => []
         | .failed =>
             if m.retryCount ≥ 3 then []
             else [{ m with retryCount := m.retryCount + 1 }]
         | .errored => [{ m with retryCount := m.retryCount + 1 }])) ∧
    drainAll [queuedM0] [alwaysFail, alwaysFail, alwaysFail] =
      [{ queuedM0 with retryCount := 3 }] ∧
    drainAll [queuedM0] [alwaysFail, alwaysFail, alwaysFail, alwaysFail] = [] ∧
    drainAll [queuedM0] [alwaysFail, alwaysFail, alwaysSucceed] = [] ∧
    processQueue [{ queuedM0 with retryCount := 3 }] alwaysError =
      [{ queuedM0 with retryCount := 4 }] := by
  refine ⟨?_, by decide, by decide, by decide, by decide⟩
  intro q send m hnodup hm
  exact processQueue_filter_characterization q send m hnodup hm

/-- Witness for the corrected C1 statement: a single drain over a fresh
entry whose send resolves false increments its retryCount to 1 and keeps it
queued. -/
theorem retry_ceiling_amended_witness :
    (([queuedM0].map (fun x => x.id)).Nodup ∧ queuedM0 ∈ [queuedM0]) ∧
    (processQueue [queuedM0] alwaysFail).filter
      (fun x => decide (x.id = queuedM0.id)) =
      [{ queuedM0 with retryCount := 1 }] := by
  refine ⟨⟨by decide, by decide⟩, ?_⟩
  have h := retry_ceiling_amended.1 [queuedM0] alwaysFail queuedM0
    (by decide) (by decide)
  exact h.trans (by decide)

/-- C4 counterexample: in the chat library read path the dedup key omits
the decoded content and is recorded before the receiver check and before
decryption; for the sender, the receiver-addressed copy poisons the key, so
the pair of stored rows with identical decoded tuples (same sender, decoded
content, timestamp and content type, ciphertext-distinct) yields zero
emitted messages instead of exactly one. -/
theorem dedup_counterexample :
    decOracle encRowA.encrypted_content = some "hi" ∧
    decOracle encRowB.encrypted_content = some "hi" ∧
    encRowA.sender_username = encRowB.sender_username ∧
    encRowA.timestamp = encRowB.timestamp ∧
    encRowA.content_type = encRowB.content_type ∧
    encRowA.encrypted_content ≠ encRowB.encrypted_content ∧
    ChatLib.getMessages decOracle "alice" "bob" [encRowA, encRowB] = [] := by
  refine ⟨by decide, by decide, by decide, by decide, by decide, by decide, by decide⟩

/-- C4 as corrected: the encrypted middleware read path dedups after
decryption on the hyphen-joined template string
sender-decodedContent-timestamp-contentType computed among rows addressed
to the current user: whenever some fetched row decodes to key string k,
exactly one returned message carries k and it is built from the first such
row in fetch order, so ciphertext-distinct copies with equal plaintext
collapse to one.  The join is not injective: rows with distinct decoded
tuples can share the key string (sender al with content x-foo versus
sender al-x with content foo at equal timestamps), and then only the first
colliding row is emitted.  The chat library read path instead keys on the
string sender-timestamp-contentType before decryption: its output never
holds two messages sharing that coarser key, but a pair with identical
decoded tuples can collapse to zero messages when the first fetched copy
is not addressed to the reader. -/
theorem dedup_amended :
    (∀ (dec : String → Option String) (cur other : String) (rows : List EncRow)
        (k : EncMw.MsgKey),
      (∃ r ∈ rows, EncMw.decKey dec cur r = some k) →
      List.countP (fun m => decide (EncMw.keyOfMessage m = k))
        (EncMw.getMessages dec cur other rows) = 1) ∧
    (∀ (dec : String → Option String) (cur other : String) (rows : List EncRow)
        (k : EncMw.MsgKey) (r0 : EncRow),
      rows.find? (fun r => decide (EncMw.decKey dec cur r = some k)) = some r0 →
      ∀ m ∈ EncMw.getMessages dec cur other rows,
        EncMw.keyOfMessage m = k → m.id = r0.id) ∧
    (∀ (dec : String → Option String) (cur other : String) (rows : List EncRow),
      ((ChatLib.getMessages dec cur other rows).map ChatLib.keyOfMessage).Nodup) ∧
    EncMw.msgKey "al" "x-foo" 7 "text" = EncMw.msgKey "al-x" "foo" 7 "text" ∧
    EncMw.decKey collideOracle "al" collideRowQ =
      some (EncMw.msgKey "al-x" "foo" 7 "text") ∧
    (EncMw.getMessages collideOracle "al" "bob" [collideRowP, collideRowQ]).map
      (fun m => m.sender_username) = ["al"] := by
  refine ⟨?_, ?_, ?_, by decide, by decide, by decide⟩
  · intro dec cur other rows k hex
    rw [EncMw.getMessages]
    rw [(sortByTimestamp_perm _).countP_eq]
    exact mw_loop_count dec cur other rows [] k hex (by simp)
  · intro dec cur other rows k r0 hfind m hm hkm
    rw [EncMw.getMessages] at hm
    have hm2 : m ∈ EncMw.decryptLoop dec cur other rows [] :=
      (sortByTimestamp_perm _).mem_iff.mp hm
    exact mw_loop_first_wins dec cur other rows [] k r0 hfind (by simp) m hm2 hkm
  · intro dec cur other rows
    rw [ChatLib.getMessages]
    have hperm : (sortByTimestamp (ChatLib.decryptLoop dec cur other rows [])).map
        ChatLib.keyOfMessage |>.Perm
        ((ChatLib.decryptLoop dec cur other rows []).map ChatLib.keyOfMessage) :=
      (sortByTimestamp_perm _).map ChatLib.keyOfMessage
    exact (chat_loop_keys_nodup dec cur other rows []).perm hperm.symm

/-- Witness for the corrected C4 statement: two ciphertext-distinct rows
addressed to the current user that decode to the same key string collapse
to exactly one returned message, built from the first fetched copy. -/
theorem dedup_amended_witness :
    EncMw.decKey decOracle "alice" encRowC = some "alice-hi-7-text" ∧
    List.countP (fun m => decide (EncMw.keyOfMessage m = "alice-hi-7-text"))
      (EncMw.getMessages decOracle "alice" "bob" [encRowC, encRowD]) = 1 ∧
    (∀ m ∈ EncMw.getMessages decOracle "alice" "bob" [encRowC, encRowD],
      EncMw.keyOfMessage m = "alice-hi-7-text" → m.id = encRowC.id) := by
  have h1 := dedup_amended.1 decOracle "alice" "bob" [encRowC, encRowD]
    "alice-hi-7-text" ⟨encRowC, by decide, by decide⟩
  have h2 := dedup_amended.2.1 decOracle "alice" "bob" [encRowC, encRowD]
    "alice-hi-7-text" encRowC (by decide)
  exact ⟨by decide, h1, h2⟩
